import Mathlib

/-!
Verification of the chunk-stitching segmentation pipeline
(`pyannote/audio/pipelines/segmentation_graph.py`, `Segmentation.apply`).

Times and activation values are embedded as rationals; per-chunk activation
matrices are lists of frame rows; the networkx consistency graph and the
bipartite clique graph are embedded as explicit node/edge lists.
-/

set_option maxRecDepth 40000

namespace SegGraph

section RatReduction

attribute [local semireducible] Rat.add Rat.mul Rat.inv Rat.sub

/-- A `(chunk, speaker-slot)` node of the consistency graph. -/
abbrev Node := ℕ × ℕ

/-! ### Chunk timing (lines 137-164 of the source) -/

/-- `num_overlapping_chunks = math.floor(0.5 * chunks.duration / chunks.step)`
(line 149), over exact rationals. -/
def numOverlappingChunks (dur step : ℚ) : ℕ :=
  (Int.floor (dur / (2 * step))).toNat

/-- The Python loop `range(max(0, current_chunk - num_overlapping_chunks),
current_chunk)` (lines 160-162): the list of past chunk indices compared
against chunk `c`.  Natural subtraction `c - L` is `max 0 (c - L)`. -/
def pastChunksList (c L : ℕ) : List ℕ :=
  List.range' (c - L) (c - (c - L))

/-- Extent `[i*step + start0, i*step + start0 + dur)` of the `i`-th chunk of a
sliding window. -/
def chunkSeg (start0 dur step : ℚ) (i : ℕ) : ℚ × ℚ :=
  (start0 + i * step, start0 + i * step + dur)

/-- `Segment.__and__`: intersection of two extents (line 164). -/
def segIntersect (s t : ℚ × ℚ) : ℚ × ℚ :=
  (max s.1 t.1, min s.2 t.2)

/-- A pyannote segment is non-empty when its start is strictly before its
end. -/
def segNonempty (s : ℚ × ℚ) : Prop := s.1 < s.2

instance (s : ℚ × ℚ) : Decidable (segNonempty s) :=
  inferInstanceAs (Decidable (s.1 < s.2))

/-- C8: for every chunk index `c`, the pairwise matching loop visits exactly
the earlier chunks `p` with `max(0, c - L) ≤ p < c` where
`L = floor(0.5 * chunk_duration / chunk_step)`, and every visited pair of
chunk extents has a non-empty temporal intersection (so a pair with an empty
intersection is never processed). -/
theorem consistency_lookback_window (dur step : ℚ) (hd : 0 < dur) (hs : 0 < step)
    (start0 : ℚ) (c p : ℕ) :
    (p ∈ pastChunksList c (numOverlappingChunks dur step) ↔
      (c - numOverlappingChunks dur step ≤ p ∧ p < c))
    ∧ (p ∈ pastChunksList c (numOverlappingChunks dur step) →
        segNonempty (segIntersect (chunkSeg start0 dur step p)
          (chunkSeg start0 dur step c))) := by
  set L := numOverlappingChunks dur step with hL
  have hmem : p ∈ pastChunksList c L ↔ (c - L ≤ p ∧ p < c) := by
    unfold pastChunksList
    rw [List.mem_range'_1]
    omega
  refine ⟨hmem, ?_⟩
  intro hp
  obtain ⟨h1, h2⟩ := hmem.mp hp
  -- the quantitative bound: (c - p) * step ≤ L * step ≤ dur / 2 < dur
  have hq : (0 : ℚ) < dur / (2 * step) := by positivity
  have hfloor : (0 : ℤ) ≤ Int.floor (dur / (2 * step)) :=
    Int.floor_nonneg.mpr hq.le
  have hLq : (L : ℚ) ≤ dur / (2 * step) := by
    have h1 : ((L : ℚ)) = ((Int.floor (dur / (2 * step)) : ℤ) : ℚ) := by
      rw [hL]
      unfold numOverlappingChunks
      exact_mod_cast Int.toNat_of_nonneg hfloor
    rw [h1]
    exact Int.floor_le _
  have hcp : ((c : ℚ) - (p : ℚ)) ≤ (L : ℚ) := by
    rw [← Nat.cast_sub (le_of_lt h2)]
    exact_mod_cast (by omega : (c - p : ℕ) ≤ L)
  have hkey : (c : ℚ) * step < (p : ℚ) * step + dur := by
    have hstep2 : (L : ℚ) * step ≤ dur / 2 := by
      have hmul := mul_le_mul_of_nonneg_right hLq hs.le
      calc (L : ℚ) * step ≤ dur / (2 * step) * step := hmul
        _ = dur / 2 := by field_simp; ring
    have hd2 : ((c : ℚ) - p) * step ≤ dur / 2 :=
      le_trans (mul_le_mul_of_nonneg_right hcp hs.le) hstep2
    nlinarith
  have hple : (p : ℚ) * step ≤ (c : ℚ) * step := by
    have hpc : (p : ℚ) ≤ (c : ℚ) := by exact_mod_cast le_of_lt h2
    exact mul_le_mul_of_nonneg_right hpc hs.le
  unfold segNonempty segIntersect chunkSeg
  simp only
  refine max_lt (lt_min ?_ ?_) (lt_min ?_ ?_)
  · linarith
  · linarith
  · linarith
  · linarith

/-- Witness for `consistency_lookback_window` at `dur = 2`, `step = 1`,
`c = 1`, `p = 0`. -/
theorem consistency_lookback_window_witness :
    (0 ∈ pastChunksList 1 (numOverlappingChunks 2 1) ↔
      (1 - numOverlappingChunks 2 1 ≤ 0 ∧ 0 < 1))
    ∧ segNonempty (segIntersect (chunkSeg 0 2 1 0) (chunkSeg 0 2 1 1)) :=
  ⟨(consistency_lookback_window 2 1 (by norm_num) (by norm_num) 0 1 0).1,
    (consistency_lookback_window 2 1 (by norm_num) (by norm_num) 0 1 0).2
      (by decide)⟩

/-! ### The consistency graph (lines 151-205) -/

/-- Maximum of a list of rationals (`np.max`; the pipeline only applies it to
non-empty columns, the empty case defaults to 0). -/
def listMax : List ℚ → ℚ
  | [] => 0
  | x :: xs => xs.foldl max x

/-- Column `j` of a frames-by-slots activation matrix (missing entries read
0). -/
def column (m : List (List ℚ)) (j : ℕ) : List ℚ :=
  m.map (fun r => r.getD j 0)

/-- An undirected graph over `(chunk, speaker)` nodes, with insertion-ordered
node and edge lists as in `networkx.Graph`. -/
structure SGraph where
  nodes : List Node
  edges : List (Node × Node)

def SGraph.empty : SGraph := ⟨[], []⟩

def SGraph.hasEdge (g : SGraph) (a b : Node) : Bool :=
  decide ((a, b) ∈ g.edges) || decide ((b, a) ∈ g.edges)

/-- `networkx.Graph.add_node` (lines 186 and 194): a no-op when the node
already exists. -/
def SGraph.addNode (g : SGraph) (v : Node) : SGraph :=
  if v ∈ g.nodes then g else { g with nodes := g.nodes ++ [v] }

/-- `networkx.Graph.add_edge` (line 203): adds missing endpoints and, when not
already present, the undirected edge. -/
def SGraph.addEdge (g : SGraph) (a b : Node) : SGraph :=
  if ((g.addNode a).addNode b).hasEdge a b then (g.addNode a).addNode b
  else { (g.addNode a).addNode b with
          edges := ((g.addNode a).addNode b).edges ++ [(a, b)] }

/-- Node insertion of the loop at lines 179-194: `(p, past_speaker)` is added
when the past slot is active in the intersection, `(c, current_speaker)` when
the current slot is. -/
def slotStepNodes (p c : ℕ) (pastData curData : List (List ℚ)) (θa : ℚ)
    (g : SGraph) (sc : ℕ × ℕ) : SGraph :=
  if listMax (column curData sc.2) > θa then
    (if listMax (column pastData sc.1) > θa then
      g.addNode (p, sc.1) else g).addNode (c, sc.2)
  else
    (if listMax (column pastData sc.1) > θa then g.addNode (p, sc.1) else g)

/-- Body of the loop at lines 179-205 for one matched slot pair
`sc = (past_speaker, current_speaker)`: add the active nodes, then the edge
when both are active and the aggregate permutation cost is strictly below the
consistency threshold (lines 196-205). -/
def slotStep (p c : ℕ) (pastData curData : List (List ℚ))
    (permCost θa θc : ℚ) (g : SGraph) (sc : ℕ × ℕ) : SGraph :=
  if listMax (column pastData sc.1) > θa ∧ listMax (column curData sc.2) > θa
      ∧ permCost < θc then
    (slotStepNodes p c pastData curData θa g sc).addEdge (p, sc.1) (c, sc.2)
  else slotStepNodes p c pastData curData θa g sc

/-- The `for past_speaker, current_speaker in enumerate(permutation)` loop of
lines 179-205, processing one overlapping chunk pair `(p, c)`. -/
def pairStep (g : SGraph) (p c : ℕ) (pastData curData : List (List ℚ))
    (perm : List ℕ) (permCost θa θc : ℚ) : SGraph :=
  perm.enum.foldl (slotStep p c pastData curData permCost θa θc) g

theorem SGraph.hasEdge_addNode (g : SGraph) (v a b : Node) :
    (g.addNode v).hasEdge a b = g.hasEdge a b := by
  unfold SGraph.addNode SGraph.hasEdge
  split <;> rfl

theorem SGraph.edges_addNode (g : SGraph) (v : Node) :
    (g.addNode v).edges = g.edges := by
  unfold SGraph.addNode
  split <;> rfl

theorem SGraph.hasEdge_comm (g : SGraph) (a b : Node) :
    g.hasEdge a b = g.hasEdge b a := by
  unfold SGraph.hasEdge
  exact Bool.or_comm _ _

theorem SGraph.hasEdge_addEdge (g : SGraph) (x y a b : Node) :
    ((g.addEdge x y).hasEdge a b = true) ↔
      (g.hasEdge a b = true ∨ (a = x ∧ b = y) ∨ (a = y ∧ b = x)) := by
  unfold SGraph.addEdge
  split
  · rename_i hcond
    rw [SGraph.hasEdge_addNode, SGraph.hasEdge_addNode]
    rw [SGraph.hasEdge_addNode, SGraph.hasEdge_addNode] at hcond
    constructor
    · exact Or.inl
    · rintro (h | ⟨rfl, rfl⟩ | ⟨rfl, rfl⟩)
      · exact h
      · exact hcond
      · rw [SGraph.hasEdge_comm]; exact hcond
  · unfold SGraph.hasEdge
    simp only [SGraph.edges_addNode, List.mem_append, List.mem_singleton,
      Bool.or_eq_true, decide_eq_true_eq, Prod.mk.injEq]
    tauto

theorem hasEdge_slotStepNodes (p c : ℕ) (pastData curData : List (List ℚ))
    (θa : ℚ) (g : SGraph) (sc : ℕ × ℕ) (a b : Node) :
    (slotStepNodes p c pastData curData θa g sc).hasEdge a b = g.hasEdge a b := by
  unfold slotStepNodes
  split <;> split <;> simp only [SGraph.hasEdge_addNode]

theorem hasEdge_slotStep (p c : ℕ) (hpc : p ≠ c)
    (pastData curData : List (List ℚ)) (permCost θa θc : ℚ) (g : SGraph)
    (sc : ℕ × ℕ) (ps cs : ℕ) :
    ((slotStep p c pastData curData permCost θa θc g sc).hasEdge
        (p, ps) (c, cs) = true) ↔
      (g.hasEdge (p, ps) (c, cs) = true ∨
        (sc = (ps, cs) ∧ listMax (column pastData ps) > θa ∧
          listMax (column curData cs) > θa ∧ permCost < θc)) := by
  obtain ⟨s1, s2⟩ := sc
  unfold slotStep
  split
  · rename_i hcond
    obtain ⟨hpa, hca, hco⟩ := hcond
    rw [SGraph.hasEdge_addEdge, hasEdge_slotStepNodes]
    constructor
    · rintro (h | ⟨he1, he2⟩ | ⟨he1, he2⟩)
      · exact Or.inl h
      · injection he1 with hp1 hs1
        injection he2 with hp2 hs2
        subst hs1
        subst hs2
        exact Or.inr ⟨rfl, hpa, hca, hco⟩
      · injection he1 with hp1 hs1
        exact absurd hp1 hpc
    · rintro (h | ⟨hsc, h2, h3, h4⟩)
      · exact Or.inl h
      · injection hsc with h5 h6
        subst h5
        subst h6
        exact Or.inr (Or.inl ⟨rfl, rfl⟩)
  · rename_i hcond
    rw [hasEdge_slotStepNodes]
    constructor
    · exact Or.inl
    · rintro (h | ⟨hsc, h2, h3, h4⟩)
      · exact h
      · injection hsc with h5 h6
        subst h5
        subst h6
        exact absurd ⟨h2, h3, h4⟩ hcond

theorem hasEdge_pairStep_list (p c : ℕ) (hpc : p ≠ c)
    (pastData curData : List (List ℚ)) (permCost θa θc : ℚ)
    (l : List (ℕ × ℕ)) (g : SGraph) (ps cs : ℕ) :
    ((l.foldl (slotStep p c pastData curData permCost θa θc) g).hasEdge
        (p, ps) (c, cs) = true) ↔
      (g.hasEdge (p, ps) (c, cs) = true ∨
        ((ps, cs) ∈ l ∧ listMax (column pastData ps) > θa ∧
          listMax (column curData cs) > θa ∧ permCost < θc)) := by
  induction l generalizing g with
  | nil => simp
  | cons hd tl ih =>
    rw [List.foldl_cons, ih, hasEdge_slotStep p c hpc]
    constructor
    · rintro ((h | ⟨rfl, h⟩) | ⟨hmem, h⟩)
      · exact Or.inl h
      · exact Or.inr ⟨List.mem_cons_self _ _, h⟩
      · exact Or.inr ⟨List.mem_cons_of_mem _ hmem, h⟩
    · rintro (h | ⟨hmem, h⟩)
      · exact Or.inl (Or.inl h)
      · rcases List.mem_cons.mp hmem with h1 | h1
        · exact Or.inl (Or.inr ⟨h1.symm, h⟩)
        · exact Or.inr ⟨h1, h⟩

/-- C1: while a pair of overlapping chunks `(p, c)` is processed, an edge
`(p, past_slot) - (c, cur_slot)` is added to the consistency graph iff
`(past_slot, cur_slot)` is a matched pair of the permutation, the max
activation of `past_slot` in the cropped intersection strictly exceeds
`activity_threshold`, so does the max activation of `cur_slot`, and the
aggregate `permutation_cost` is strictly below `consistency_threshold`; in
particular a chunk pair whose permutation cost equals the threshold exactly
contributes no edge. -/
theorem consistency_edge_iff (p c ps cs : ℕ) (hpc : p ≠ c) (g : SGraph)
    (pastData curData : List (List ℚ)) (perm : List ℕ) (permCost θa θc : ℚ) :
    (((pairStep g p c pastData curData perm permCost θa θc).hasEdge
        (p, ps) (c, cs) = true) ↔
      (g.hasEdge (p, ps) (c, cs) = true ∨
        ((ps, cs) ∈ perm.enum ∧ listMax (column pastData ps) > θa ∧
          listMax (column curData cs) > θa ∧ permCost < θc)))
    ∧ (permCost = θc →
        (((pairStep g p c pastData curData perm permCost θa θc).hasEdge
            (p, ps) (c, cs) = true) ↔
          g.hasEdge (p, ps) (c, cs) = true)) := by
  have hmain := hasEdge_pairStep_list p c hpc pastData curData permCost θa θc
    perm.enum g ps cs
  refine ⟨hmain, ?_⟩
  intro heq
  rw [pairStep] at *
  rw [hmain]
  constructor
  · rintro (h | ⟨_, _, _, hlt⟩)
    · exact h
    · exact absurd heq (ne_of_lt hlt)
  · exact Or.inl

/-- Witness for `consistency_edge_iff`: with a single slot of constant
activation 1, thresholds 1/2, and permutation cost 0, the edge
`(0,0) - (1,0)` is added. -/
theorem consistency_edge_iff_witness :
    (pairStep SGraph.empty 0 1 [[1]] [[1]] [0] 0 (mkRat 1 2)
      (mkRat 1 2)).hasEdge (0, 0) (1, 0) = true :=
  (consistency_edge_iff 0 1 0 0 (by decide) SGraph.empty [[1]] [[1]] [0] 0
    (mkRat 1 2) (mkRat 1 2)).1.mpr
    (Or.inr ⟨by decide, by decide, by decide, by decide⟩)

/-! ### Winner-take-all aggregation (lines 280-283) -/

/-- `np.argmax` over one row: the index of the first occurrence of the row
maximum. -/
def argmaxRow (row : List ℚ) : ℕ :=
  row.findIdx (fun v => decide (v = listMax row))

/-- Zero every entry of a row except the one at index `m` (`k0` is the index
of the row's head). -/
def maskRow (m : ℕ) : ℕ → List ℚ → List ℚ
  | _, [] => []
  | k0, v :: vs => (if k0 = m then v else 0) :: maskRow m (k0 + 1) vs

/-- Lines 280-283: `most_central = np.argmax(sub_overlapped, axis=1)` followed
by `mat[most_central != k, k] = 0.0` — every row keeps only the entry in the
column holding that row's overlap-count argmax. -/
def wtaMat (mat ovl : List (List ℚ)) : List (List ℚ) :=
  (mat.zip ovl).map (fun pr => maskRow (argmaxRow pr.2) 0 pr.1)

/-- Entry `(f, k)` of a rational matrix (0 outside the carrier). -/
def entry (m : List (List ℚ)) (f k : ℕ) : ℚ := (m.getD f []).getD k 0

/-- Track `k` has the strictly maximal overlap-count at frame `f`. -/
def strictlyMaxAt (ovl : List (List ℚ)) (f k : ℕ) : Prop :=
  ∀ j, j < (ovl.getD f []).length → j ≠ k → entry ovl f j < entry ovl f k

instance (ovl : List (List ℚ)) (f k : ℕ) : Decidable (strictlyMaxAt ovl f k) := by
  unfold strictlyMaxAt
  infer_instance

theorem le_foldl_max (l : List ℚ) (a : ℚ) : a ≤ l.foldl max a := by
  induction l generalizing a with
  | nil => exact le_refl a
  | cons x xs ih => exact le_trans (le_max_left a x) (ih (max a x))

theorem mem_le_foldl_max (l : List ℚ) :
    ∀ (a x : ℚ), x ∈ l → x ≤ l.foldl max a := by
  induction l with
  | nil =>
    intro a x hx
    cases hx
  | cons y ys ih =>
    intro a x hx
    rw [List.foldl_cons]
    rcases List.mem_cons.mp hx with rfl | h
    · exact le_trans (le_max_right a x) (le_foldl_max ys (max a x))
    · exact ih (max a y) x h

theorem le_listMax (l : List ℚ) (x : ℚ) (hx : x ∈ l) : x ≤ listMax l := by
  cases l with
  | nil => cases hx
  | cons y ys =>
    rcases List.mem_cons.mp hx with rfl | h
    · exact le_foldl_max ys x
    · exact mem_le_foldl_max ys y x h

theorem foldl_max_mem (l : List ℚ) : ∀ a : ℚ, l.foldl max a ∈ a :: l := by
  induction l with
  | nil =>
    intro a
    exact List.mem_singleton.mpr rfl
  | cons x xs ih =>
    intro a
    rw [List.foldl_cons]
    rcases List.mem_cons.mp (ih (max a x)) with h | h
    · rcases max_choice a x with hm | hm
      · rw [h, hm]
        exact List.mem_cons_self _ _
      · rw [h, hm]
        exact List.mem_cons_of_mem _ (List.mem_cons_self _ _)
    · exact List.mem_cons_of_mem _ (List.mem_cons_of_mem _ h)

theorem listMax_mem (l : List ℚ) (hl : l ≠ []) : listMax l ∈ l := by
  cases l with
  | nil => exact absurd rfl hl
  | cons x xs => exact foldl_max_mem xs x

theorem getD_mem (l : List ℚ) : ∀ k, k < l.length → l.getD k 0 ∈ l := by
  induction l with
  | nil =>
    intro k hk
    exact absurd hk (by simp)
  | cons x xs ih =>
    intro k hk
    cases k with
    | zero => exact List.mem_cons_self _ _
    | succ k =>
      rw [List.getD_cons_succ]
      exact List.mem_cons_of_mem _ (ih k (by simpa using hk))

theorem findIdx_eq_of (p : ℚ → Bool) (l : List ℚ) :
    ∀ k, k < l.length → p (l.getD k 0) = true →
      (∀ j, j < k → p (l.getD j 0) = false) → l.findIdx p = k := by
  induction l with
  | nil =>
    intro k hk
    exact absurd hk (by simp)
  | cons x xs ih =>
    intro k hk hpk hj
    cases k with
    | zero =>
      rw [List.getD_cons_zero] at hpk
      rw [List.findIdx_cons, hpk]
      rfl
    | succ k =>
      have h0 : p x = false := by
        have := hj 0 (Nat.succ_pos k)
        rwa [List.getD_cons_zero] at this
      rw [List.findIdx_cons, h0]
      have hrec : xs.findIdx p = k := by
        refine ih k (by simpa using hk) (by rwa [List.getD_cons_succ] at hpk) ?_
        intro j hjk
        have := hj (j + 1) (by omega)
        rwa [List.getD_cons_succ] at this
      simp [hrec]

theorem argmaxRow_eq_of_strictMax (row : List ℚ) (k : ℕ) (hk : k < row.length)
    (hmax : ∀ j, j < row.length → j ≠ k → row.getD j 0 < row.getD k 0) :
    argmaxRow row = k := by
  have hne : row ≠ [] := by
    intro h
    rw [h] at hk
    exact absurd hk (by simp)
  have hkle : row.getD k 0 ≤ listMax row := le_listMax row _ (getD_mem row k hk)
  obtain ⟨⟨j, hj⟩, hjeq⟩ := List.mem_iff_get.mp (listMax_mem row hne)
  have hjget : row.getD j 0 = listMax row := by
    rw [← hjeq]
    exact List.getD_eq_getElem row 0 hj
  have hkeq : row.getD k 0 = listMax row := by
    by_cases hjk : j = k
    · rw [← hjget, hjk]
    · have hlt := hmax j hj hjk
      rw [hjget] at hlt
      exact absurd (lt_of_le_of_lt hkle hlt) (lt_irrefl _)
  refine findIdx_eq_of _ row k hk ?_ ?_
  · rw [hkeq]
    exact decide_eq_true rfl
  · intro i hik
    have hlt := hmax i (by omega) (by omega)
    rw [hkeq] at hlt
    exact decide_eq_false (ne_of_lt hlt)

theorem maskRow_getD (m : ℕ) (l : List ℚ) :
    ∀ (k0 i : ℕ),
      (maskRow m k0 l).getD i 0 = if k0 + i = m then l.getD i 0 else 0 := by
  induction l with
  | nil =>
    intro k0 i
    simp [maskRow]
  | cons v vs ih =>
    intro k0 i
    cases i with
    | zero => simp [maskRow]
    | succ i =>
      simp only [maskRow, List.getD_cons_succ]
      rw [ih (k0 + 1) i]
      have harith : k0 + 1 + i = k0 + (i + 1) := by omega
      rw [harith]

theorem wtaMat_row (mat : List (List ℚ)) :
    ∀ (ovl : List (List ℚ)), mat.length = ovl.length → ∀ f,
      (wtaMat mat ovl).getD f [] =
        maskRow (argmaxRow (ovl.getD f [])) 0 (mat.getD f []) := by
  induction mat with
  | nil =>
    intro ovl h f
    have : ovl = [] := List.length_eq_zero.mp h.symm
    subst this
    cases f <;> rfl
  | cons r rs ih =>
    intro ovl h f
    cases ovl with
    | nil => exact absurd h (by simp)
    | cons o os =>
      cases f with
      | zero => rfl
      | succ f =>
        have hlen : rs.length = os.length := by simpa using h
        exact ih os hlen f

/-- C2 counterexample: at a frame where two tracks both have overlap-count 1
(a tie, so no track is strictly maximal), the code keeps the first track's
accumulated activation instead of zeroing every non-strictly-maximal track. -/
theorem winner_take_all_counterexample :
    entry [[(1 : ℚ), 1]] 0 0 ≠ 0 ∧ entry [[(1 : ℚ), 1]] 0 1 ≠ 0
    ∧ ¬ strictlyMaxAt [[(1 : ℚ), 1]] 0 0
    ∧ wtaMat [[(5 : ℚ), 7]] [[(1 : ℚ), 1]] = [[5, 0]]
    ∧ entry (wtaMat [[(5 : ℚ), 7]] [[(1 : ℚ), 1]]) 0 0 = 5 := by
  refine ⟨by decide, by decide, by decide, by decide, by decide⟩

/-- C2 (amended): at each frame the track whose column holds the frame's
overlap-count argmax (the smallest index attaining the maximal count) keeps
its accumulated value and every other track's entry is zeroed at that frame
only; when one track's overlap-count is strictly maximal at the frame, the
argmax is that track, so exactly the strictly maximal track keeps its
value. -/
theorem winner_take_all_keeps_argmax (mat ovl : List (List ℚ))
    (h : mat.length = ovl.length) (f k : ℕ) :
    (entry (wtaMat mat ovl) f k =
      if k = argmaxRow (ovl.getD f []) then entry mat f k else 0)
    ∧ (k < (ovl.getD f []).length → strictlyMaxAt ovl f k →
        argmaxRow (ovl.getD f []) = k) := by
  constructor
  · unfold entry
    rw [wtaMat_row mat ovl h f, maskRow_getD]
    simp only [Nat.zero_add]
  · intro hk hsm
    exact argmaxRow_eq_of_strictMax _ k hk (fun j hj hjk => hsm j hj hjk)

/-- Witness for `winner_take_all_keeps_argmax`: with overlap-counts 2 and 1 at
a frame, track B (count 1) is zeroed there and track A (count 2) keeps its
value. -/
theorem winner_take_all_keeps_argmax_witness :
    entry (wtaMat [[(3 : ℚ), 5]] [[(2 : ℚ), 1]]) 0 1 = 0
    ∧ entry (wtaMat [[(3 : ℚ), 5]] [[(2 : ℚ), 1]]) 0 0 = 3
    ∧ argmaxRow ([[(2 : ℚ), 1]].getD 0 []) = 0 := by
  have h0 := winner_take_all_keeps_argmax [[(3 : ℚ), 5]] [[(2 : ℚ), 1]] rfl 0 0
  have h1 := winner_take_all_keeps_argmax [[(3 : ℚ), 5]] [[(2 : ℚ), 1]] rfl 0 1
  have hax : argmaxRow ([[(2 : ℚ), 1]].getD 0 []) = 0 :=
    h0.2 (by decide) (by decide)
  refine ⟨?_, ?_, hax⟩
  · rw [h1.1, hax]
    decide
  · rw [h0.1, hax]
    decide

/-! ### The bipartite clique graph (lines 207-256) -/

/-- Bipartite node: `Sum.inl i` is clique node `i` (attribute `bipartite = 0`
in `make_clique_bipartite`), `Sum.inr v` a speaker node `(chunk, slot)`. -/
abbrev BNode := Sum ℕ Node

/-- The bipartite clique graph of line 208: clique nodes, speaker nodes,
clique-to-speaker membership edges and (after the merge step) direct
clique-to-clique edges. -/
structure BGraph where
  cnodes : List ℕ
  snodes : List Node
  edges : List (ℕ × Node)
  cedges : List (ℕ × ℕ)

/-- Member speaker nodes of clique node `i` — its neighbours in the bipartite
graph, `sub_bipartite[clique]` at lines 223 and 238. -/
def BGraph.members (B : BGraph) (i : ℕ) : List Node :=
  (B.edges.filter (fun e => decide (e.1 = i))).map (fun e => e.2)

/-- Degree of a speaker node. -/
def BGraph.degS (B : BGraph) (v : Node) : ℕ :=
  (B.edges.filter (fun e => decide (e.2 = v))).length

/-- Degree of a clique node. -/
def BGraph.degC (B : BGraph) (i : ℕ) : ℕ :=
  (B.edges.filter (fun e => decide (e.1 = i))).length +
    (B.cedges.filter (fun e => decide (e.1 = i) || decide (e.2 = i))).length

/-- Lines 220-227: remove every clique node with fewer than `L + 1` member
speaker nodes, together with its incident edges. -/
def pruneIncomplete (B : BGraph) (L : ℕ) : BGraph :=
  { cnodes := B.cnodes.filter (fun i => !decide ((B.members i).length < L + 1)),
    snodes := B.snodes,
    edges := B.edges.filter (fun e => !decide ((B.members e.1).length < L + 1)),
    cedges := B.cedges.filter (fun e =>
      !decide ((B.members e.1).length < L + 1) &&
        !decide ((B.members e.2).length < L + 1)) }

/-- Lines 230-233: remove every node left with degree 0 (at this point only
speaker nodes can be isolated, so no edges disappear). -/
def pruneOrphans (B : BGraph) : BGraph :=
  { cnodes := B.cnodes.filter (fun i => !decide (B.degC i = 0)),
    snodes := B.snodes.filter (fun v => !decide (B.degS v = 0)),
    edges := B.edges,
    cedges := B.cedges }

/-- The pruning phase of one bipartite component (lines 220-233). -/
def pruneComponent (B : BGraph) (L : ℕ) : BGraph :=
  pruneOrphans (pruneIncomplete B L)

/-- `complete_cliques` (lines 235-241): clique nodes with exactly `L + 1`
members. -/
def completeCliques (B : BGraph) (L : ℕ) : List ℕ :=
  B.cnodes.filter (fun i => decide ((B.members i).length = L + 1))

/-- `nx.common_neighbors` (lines 246-248): speaker nodes adjacent to both
clique nodes, counted in the pre-merge snapshot. -/
def commonNbrs (B : BGraph) (i j : ℕ) : List Node :=
  B.snodes.filter (fun v =>
    decide ((i, v) ∈ B.edges) && decide ((j, v) ∈ B.edges))

/-- `itertools.combinations(l, 2)` (line 245). -/
def combos : List ℕ → List (ℕ × ℕ)
  | [] => []
  | x :: xs => xs.map (fun y => (x, y)) ++ combos xs

/-- Lines 244-250: the clique-to-clique edges added by the merge step —
pairs of complete cliques sharing exactly `L` speaker neighbours. -/
def mergedCEdges (B : BGraph) (L : ℕ) : List (ℕ × ℕ) :=
  (combos (completeCliques B L)).filter
    (fun pr => decide ((commonNbrs B pr.1 pr.2).length = L))

/-- Lines 244-250: connect two complete clique nodes directly when they share
exactly `L` speaker neighbours. -/
def mergeCliques (B : BGraph) (L : ℕ) : BGraph :=
  { B with cedges := B.cedges ++ mergedCEdges B L }

def BGraph.hasCEdge (B : BGraph) (i j : ℕ) : Bool :=
  decide ((i, j) ∈ B.cedges) || decide ((j, i) ∈ B.cedges)

/-- Adjacency of the (possibly merged) bipartite graph. -/
def BGraph.adjB (B : BGraph) (a b : BNode) : Bool :=
  match a, b with
  | Sum.inl i, Sum.inr v => decide ((i, v) ∈ B.edges)
  | Sum.inr v, Sum.inl i => decide ((i, v) ∈ B.edges)
  | Sum.inl i, Sum.inl j => decide ((i, j) ∈ B.cedges) || decide ((j, i) ∈ B.cedges)
  | Sum.inr _, Sum.inr _ => false

def BGraph.nodeList (B : BGraph) : List BNode :=
  B.cnodes.map Sum.inl ++ B.snodes.map Sum.inr

/-- Boolean membership for bipartite nodes. -/
def bmem (v : BNode) (l : List BNode) : Bool :=
  l.any (fun w => decide (w = v))

/-- One growth step of reachability inside the node list `all`. -/
def growComponent (adj : BNode → BNode → Bool) (all cur : List BNode) :
    List BNode :=
  all.filter (fun v => bmem v cur || cur.any (fun w => adj v w))

def iterGrow (adj : BNode → BNode → Bool) (all : List BNode) :
    ℕ → List BNode → List BNode
  | 0, cur => cur
  | n + 1, cur => iterGrow adj all n (growComponent adj all cur)

/-- The connected component of `v` (as a sublist of `all` after saturation,
plus the seed). -/
def componentOf (adj : BNode → BNode → Bool) (all : List BNode) (v : BNode) :
    List BNode :=
  iterGrow adj all all.length (all.filter (fun w => decide (w = v)))

def bcomponentsStep (adj : BNode → BNode → Bool) (all : List BNode)
    (acc : List BNode × List (List BNode)) (v : BNode) :
    List BNode × List (List BNode) :=
  if bmem v acc.1 then acc
  else (acc.1 ++ componentOf adj all v, acc.2 ++ [componentOf adj all v])

/-- `nx.connected_components`, in first-node order. -/
def bcomponents (B : BGraph) : List (List BNode) :=
  (B.nodeList.foldl (bcomponentsStep B.adjB B.nodeList) ([], [])).2

/-- Restriction of a component to its speaker nodes (line 254). -/
def trackNodes (comp : List BNode) : List Node :=
  comp.filterMap (fun n => match n with | Sum.inl _ => none | Sum.inr v => some v)

/-- Lines 252-256 applied after the merge step: the connected components of
the merged graph, restricted to speaker nodes — the tracks of one bipartite
component. -/
def componentTracks (B : BGraph) (L : ℕ) : List (List Node) :=
  (bcomponents (mergeCliques B L)).map trackNodes

/-- C3: in each (pruned) bipartite component, every clique node with fewer
than `L + 1` member speaker nodes is removed, every clique node with exactly
`L + 1` members survives the pruning, and afterwards every speaker node left
with degree 0 is removed. -/
theorem clique_pruning (B : BGraph) (L : ℕ) :
    (∀ i ∈ B.cnodes, (B.members i).length < L + 1 →
      i ∉ (pruneComponent B L).cnodes)
    ∧ (∀ i ∈ B.cnodes, (B.members i).length = L + 1 →
      i ∈ (pruneComponent B L).cnodes)
    ∧ (∀ v ∈ (pruneIncomplete B L).snodes,
        (pruneIncomplete B L).degS v = 0 → v ∉ (pruneComponent B L).snodes) := by
  refine ⟨?_, ?_, ?_⟩
  · intro i hi hlen hmem
    have h1 : i ∈ (pruneIncomplete B L).cnodes := by
      unfold pruneComponent pruneOrphans at hmem
      exact (List.mem_filter.mp hmem).1
    unfold pruneIncomplete at h1
    have h2 := (List.mem_filter.mp h1).2
    rw [Bool.not_eq_true', decide_eq_false_iff_not] at h2
    exact h2 hlen
  · intro i hi hlen
    have hkeep : (!decide ((B.members i).length < L + 1)) = true := by
      simp [hlen]
    have h1 : i ∈ (pruneIncomplete B L).cnodes :=
      List.mem_filter.mpr ⟨hi, hkeep⟩
    have hmembers : (pruneIncomplete B L).members i = B.members i := by
      show ((B.edges.filter
            (fun e => !decide ((B.members e.1).length < L + 1))).filter
              (fun e => decide (e.1 = i))).map (fun e => e.2)
          = (B.edges.filter (fun e => decide (e.1 = i))).map (fun e => e.2)
      rw [List.filter_filter]
      refine congrArg (List.map _) (List.filter_congr ?_)
      intro e he
      by_cases h : e.1 = i
      · simp [h, hlen]
      · simp [h]
    have hdeg : (pruneIncomplete B L).degC i ≠ 0 := by
      unfold BGraph.degC
      have hlen2 : ((pruneIncomplete B L).edges.filter
          (fun e => decide (e.1 = i))).length
          = ((pruneIncomplete B L).members i).length := by
        unfold BGraph.members
        rw [List.length_map]
      rw [hlen2, hmembers, hlen]
      omega
    unfold pruneComponent pruneOrphans
    refine List.mem_filter.mpr ⟨h1, ?_⟩
    simp [hdeg]
  · intro v hv hdeg hmem
    unfold pruneComponent pruneOrphans at hmem
    have h2 := (List.mem_filter.mp hmem).2
    rw [Bool.not_eq_true', decide_eq_false_iff_not] at h2
    exact h2 hdeg

/-- Example graph for the pruning witness: clique 0 has one member, clique 1
has two; with `L = 1` clique 0 is incomplete and speaker `(0,0)` becomes an
orphan. -/
def pruningExampleGraph : BGraph :=
  { cnodes := [0, 1],
    snodes := [(0, 0), (1, 0), (1, 1)],
    edges := [(0, (0, 0)), (1, (1, 0)), (1, (1, 1))],
    cedges := [] }

/-- Witness for `clique_pruning` on `pruningExampleGraph` with `L = 1`. -/
theorem clique_pruning_witness :
    0 ∉ (pruneComponent pruningExampleGraph 1).cnodes
    ∧ 1 ∈ (pruneComponent pruningExampleGraph 1).cnodes
    ∧ ((0 : ℕ), (0 : ℕ)) ∉ (pruneComponent pruningExampleGraph 1).snodes :=
  ⟨(clique_pruning pruningExampleGraph 1).1 0 (by decide) (by decide),
    (clique_pruning pruningExampleGraph 1).2.1 1 (by decide) (by decide),
    (clique_pruning pruningExampleGraph 1).2.2 (0, 0) (by decide) (by decide)⟩

theorem combos_sub {l : List ℕ} {x y : ℕ} (h : (x, y) ∈ combos l) :
    x ∈ l ∧ y ∈ l := by
  induction l with
  | nil => cases h
  | cons a as ih =>
    simp only [combos] at h
    rcases List.mem_append.mp h with h1 | h1
    · obtain ⟨y1, hy1, heq⟩ := List.mem_map.mp h1
      injection heq with h2 h3
      subst h2
      subst h3
      exact ⟨List.mem_cons_self _ _, List.mem_cons_of_mem _ hy1⟩
    · obtain ⟨hx, hy⟩ := ih h1
      exact ⟨List.mem_cons_of_mem _ hx, List.mem_cons_of_mem _ hy⟩

theorem combos_ne {l : List ℕ} (hl : l.Nodup) {x y : ℕ}
    (h : (x, y) ∈ combos l) : x ≠ y := by
  induction l with
  | nil => cases h
  | cons a as ih =>
    simp only [combos] at h
    rcases List.mem_append.mp h with h1 | h1
    · obtain ⟨y1, hy1, heq⟩ := List.mem_map.mp h1
      injection heq with h2 h3
      subst h2
      subst h3
      intro hxy
      rw [← hxy] at hy1
      exact (List.nodup_cons.mp hl).1 hy1
    · exact ih (List.nodup_cons.mp hl).2 h1

theorem combos_total {l : List ℕ} {x y : ℕ} (hx : x ∈ l) (hy : y ∈ l)
    (hxy : x ≠ y) : (x, y) ∈ combos l ∨ (y, x) ∈ combos l := by
  induction l with
  | nil => cases hx
  | cons a as ih =>
    simp only [combos]
    rcases List.mem_cons.mp hx with rfl | hx1
    · have hy1 : y ∈ as := by
        rcases List.mem_cons.mp hy with h | h
        · exact absurd h.symm hxy
        · exact h
      left
      exact List.mem_append.mpr (Or.inl (List.mem_map.mpr ⟨y, hy1, rfl⟩))
    · rcases List.mem_cons.mp hy with rfl | hy1
      · right
        exact List.mem_append.mpr (Or.inl (List.mem_map.mpr ⟨x, hx1, rfl⟩))
      · rcases ih hx1 hy1 with h | h
        · left
          exact List.mem_append.mpr (Or.inr h)
        · right
          exact List.mem_append.mpr (Or.inr h)

theorem commonNbrs_comm (B : BGraph) (i j : ℕ) :
    commonNbrs B i j = commonNbrs B j i := by
  unfold commonNbrs
  exact List.filter_congr (fun v hv => Bool.and_comm _ _)

/-- C4: after pruning, two clique nodes receive a direct edge iff both are
complete (exactly `L + 1` members), distinct, and share exactly `L` speaker
neighbours; the tracks are the connected components of the merged graph
restricted to speaker nodes. -/
theorem clique_merge_edges (B : BGraph) (L : ℕ) (hnd : B.cnodes.Nodup)
    (hce : B.cedges = []) (i j : ℕ) :
    ((mergeCliques B L).hasCEdge i j = true ↔
      (i ∈ completeCliques B L ∧ j ∈ completeCliques B L ∧ i ≠ j ∧
        (commonNbrs B i j).length = L))
    ∧ componentTracks B L = (bcomponents (mergeCliques B L)).map trackNodes := by
  have hnodup : (completeCliques B L).Nodup := List.Nodup.filter _ hnd
  constructor
  · unfold BGraph.hasCEdge mergeCliques mergedCEdges
    simp only [hce, List.nil_append]
    rw [Bool.or_eq_true, decide_eq_true_eq, decide_eq_true_eq]
    constructor
    · rintro (h1 | h1)
      · obtain ⟨hmem, hpred⟩ := List.mem_filter.mp h1
        obtain ⟨hi, hj⟩ := combos_sub hmem
        refine ⟨hi, hj, combos_ne hnodup hmem, ?_⟩
        simpa using hpred
      · obtain ⟨hmem, hpred⟩ := List.mem_filter.mp h1
        obtain ⟨hj, hi⟩ := combos_sub hmem
        refine ⟨hi, hj, (combos_ne hnodup hmem).symm, ?_⟩
        rw [commonNbrs_comm]
        simpa using hpred
    · rintro ⟨hi, hj, hij, hlen⟩
      rcases combos_total hi hj hij with hm | hm
      · left
        exact List.mem_filter.mpr ⟨hm, by simp [hlen]⟩
      · right
        exact List.mem_filter.mpr ⟨hm, by simp [commonNbrs_comm B j i, hlen]⟩
  · rfl

/-- Example graph for the merge witness: two complete cliques (with `L = 1`)
sharing exactly one speaker node. -/
def mergeExampleGraph : BGraph :=
  { cnodes := [0, 1],
    snodes := [(0, 0), (1, 0), (2, 0)],
    edges := [(0, (0, 0)), (0, (1, 0)), (1, (1, 0)), (1, (2, 0))],
    cedges := [] }

/-- Witness for `clique_merge_edges`: the two complete cliques of
`mergeExampleGraph` share exactly one speaker, so with `L = 1` a direct edge
connects them. -/
theorem clique_merge_edges_witness :
    (mergeCliques mergeExampleGraph 1).hasCEdge 0 1 = true :=
  (clique_merge_edges mergeExampleGraph 1 (by decide) rfl 0 1).1.mpr
    ⟨by decide, by decide, by decide, by decide⟩

/-! ### End-to-end model of `apply` (lines 123-305) -/

/-- One chunk of activations: extent `[start, stop)` and a frames-by-slots
matrix. -/
structure Chunk where
  start : ℚ
  stop : ℚ
  data : List (List ℚ)
deriving DecidableEq

/-- Modelled from the spec: `SlidingWindowFeature.crop` restricted to the
temporal intersection (§4.1, "two activation sub-matrices restricted to the
temporal intersection of a past and current chunk"); `pyannote.core`'s crop
is outside the given sources.  Keeps the frame rows whose grid time lies in
`[lo, hi)`. -/
def cropData (fstep lo hi : ℚ) (ch : Chunk) : List (List ℚ) :=
  (ch.data.enum.filter (fun pr =>
    decide (lo ≤ ch.start + (pr.1 : ℚ) * fstep) &&
      decide (ch.start + (pr.1 : ℚ) * fstep < hi))).map (fun pr => pr.2)

/-- Modelled from the spec: the per-slot dissimilarity of the permutation
matcher (§4.1, "a distance/dissimilarity between the two slots'
frame-activation vectors"); `pyannote.audio.utils.permutation` is not among
the given sources. -/
def vecCost (u v : List ℚ) : ℚ :=
  ((u.zip v).map (fun pr => |pr.1 - pr.2|)).sum

def costMatrix (past cur : List (List ℚ)) (i j : ℕ) : ℚ :=
  vecCost (column past i) (column cur j)

/-- Lines 172-177: `permutation_cost = sum(cost[i, permutation[i]])`. -/
def totalCost (cost : ℕ → ℕ → ℚ) (perm : List ℕ) : ℚ :=
  (perm.enum.map (fun pr => cost pr.1 pr.2)).sum

def insertEverywhere (a : ℕ) : List ℕ → List (List ℕ)
  | [] => [[a]]
  | b :: bs => (a :: b :: bs) :: (insertEverywhere a bs).map (fun l => b :: l)

/-- All permutations of a list (insertion-based, structural recursion). -/
def allPerms : List ℕ → List (List ℕ)
  | [] => [[]]
  | a :: as => ((allPerms as).map (insertEverywhere a)).flatten

/-- Modelled from the spec: `permutate` solves the linear assignment exactly
and deterministically (§4.1); embedded as exhaustive minimisation over all
permutations of the `S` slots, keeping the first minimiser. -/
def permutate (cost : ℕ → ℕ → ℚ) (S : ℕ) : List ℕ :=
  match allPerms (List.range S) with
  | [] => []
  | p :: ps => ps.foldl
      (fun best q => if totalCost cost q < totalCost cost best then q else best) p

/-- Lines 163-205: process one `(past, current)` chunk pair — crop both
activations to the intersection, match the slots, then run the slot loop. -/
def pairStepFull (θa θc fstep : ℚ) (acts : List Chunk) (c : ℕ) (g : SGraph)
    (p : ℕ) : SGraph :=
  let past := acts.getD p ⟨0, 0, []⟩
  let cur := acts.getD c ⟨0, 0, []⟩
  let lo := max past.start cur.start
  let hi := min past.stop cur.stop
  let pastData := cropData fstep lo hi past
  let curData := cropData fstep lo hi cur
  let S := (past.data.headD []).length
  let perm := permutate (costMatrix pastData curData) S
  pairStep g p c pastData curData perm
    (totalCost (costMatrix pastData curData) perm) θa θc

/-- Lines 156-205: the consistency graph over all chunk pairs within the
lookback window. -/
def buildGraph (θa θc fstep dur step : ℚ) (acts : List Chunk) : SGraph :=
  (List.range acts.length).foldl
    (fun g c => (pastChunksList c (numOverlappingChunks dur step)).foldl
      (pairStepFull θa θc fstep acts c) g)
    SGraph.empty

def isCliqueList (g : SGraph) (s : List Node) : Bool :=
  s.all (fun a => s.all (fun b => decide (a = b) || g.hasEdge a b))

/-- `nx.find_cliques` modelled extensionally: the non-empty maximal cliques,
in `sublists` order. -/
def maximalCliques (g : SGraph) : List (List Node) :=
  g.nodes.sublists.filter (fun s =>
    !s.isEmpty && isCliqueList g s &&
      g.nodes.all (fun v => decide (v ∈ s) || !isCliqueList g (v :: s)))

/-- `nx.algorithms.clique.make_clique_bipartite` (line 208): the speaker
nodes are the graph's nodes, the clique nodes index the maximal cliques. -/
def makeCliqueBipartite (g : SGraph) : BGraph :=
  { cnodes := List.range (maximalCliques g).length,
    snodes := g.nodes,
    edges := ((maximalCliques g).enum.map (fun pr =>
      pr.2.map (fun v => (pr.1, v)))).flatten,
    cedges := [] }

/-- `bipartite.subgraph(component).copy()` (line 216). -/
def BGraph.induce (B : BGraph) (comp : List BNode) : BGraph :=
  { cnodes := B.cnodes.filter (fun i => bmem (Sum.inl i) comp),
    snodes := B.snodes.filter (fun v => bmem (Sum.inr v) comp),
    edges := B.edges.filter (fun e =>
      bmem (Sum.inl e.1) comp && bmem (Sum.inr e.2) comp),
    cedges := B.cedges.filter (fun e =>
      bmem (Sum.inl e.1) comp && bmem (Sum.inl e.2) comp) }

/-- Rounding to the nearest integer (`np.rint`; the example grids are exact,
so the tie policy is irrelevant). -/
def ratRound (q : ℚ) : ℤ := Int.floor (q + mkRat 1 2)

/-- Modelled from the spec: the file-global frame grid (§6) — the frame
index closest to time `t` on a grid of step `fstep` starting at 0
(`frames.closest_frame`, line 275; `pyannote.core` is outside the given
sources). -/
def closestFrame (fstep t : ℚ) : ℕ := (ratRound (t / fstep)).toNat

/-- Modelled from the spec: the file's frame count
(`frames.samples(..., mode="center")`, lines 261-263). -/
def numFramesInFile (fstep fileDur : ℚ) : ℕ := (ratRound (fileDur / fstep)).toNat

/-- `sub[start_frame:end_frame, k] += vec` (lines 277-278) on one column. -/
def addInto (startF : ℕ) (vec col : List ℚ) : List ℚ :=
  col.enum.map (fun pr =>
    if startF ≤ pr.1 ∧ pr.1 < startF + vec.length then
      pr.2 + vec.getD (pr.1 - startF) 0
    else pr.2)

/-- Lexicographic order on `(chunk, speaker)` used by `sorted(component)`
(line 272). -/
def nodeLE (a b : Node) : Bool :=
  decide (a.1 < b.1) || (decide (a.1 = b.1) && decide (a.2 ≤ b.2))

def insertSorted (a : Node) : List Node → List Node
  | [] => [a]
  | b :: bs => if nodeLE a b then a :: b :: bs else b :: insertSorted a bs

def sortNodes (l : List Node) : List Node := l.foldr insertSorted []

/-- Lines 268-278: accumulate one track's member slot activations into a sum
column and an overlap-count column of length `n`. -/
def accTrack (fstep : ℚ) (n : ℕ) (acts : List Chunk) (track : List Node) :
    List ℚ × List ℚ :=
  (sortNodes track).foldl
    (fun cols node =>
      let ch := acts.getD node.1 ⟨0, 0, []⟩
      let vec := column ch.data node.2
      let startF := closestFrame fstep ch.start
      (addInto startF vec cols.1,
        addInto startF (List.replicate vec.length 1) cols.2))
    (List.replicate n 0, List.replicate n 0)

/-- Assemble per-track columns into a frames-by-tracks matrix. -/
def colsToRows (n : ℕ) (cols : List (List ℚ)) : List (List ℚ) :=
  (List.range n).map (fun f => cols.map (fun col => col.getD f 0))

def colSum (m : List (List ℚ)) (k : ℕ) : ℚ :=
  (m.map (fun row => row.getD k 0)).sum

/-- Boolean column mask `[:, active]` (lines 286-288). -/
def selectCols (m : List (List ℚ)) (keep : List ℕ) : List (List ℚ) :=
  m.map (fun row => keep.map (fun k => row.getD k 0))

/-- Lines 216-291: process one connected component of the bipartite clique
graph — prune, merge, extract tracks, accumulate, winner-take-all, column
filter; `none` models the `continue` of lines 258-259. -/
def processComponent (fstep : ℚ) (n : ℕ) (acts : List Chunk) (L : ℕ)
    (sub : BGraph) : Option (List (List ℚ) × List (List ℚ)) :=
  let pruned := pruneComponent sub L
  let tracks := componentTracks pruned L
  if tracks.length = 0 then none
  else
    let cols := tracks.map (accTrack fstep (n + 100) acts)
    let agg := colsToRows (n + 100) (cols.map (fun pr => pr.1))
    let ovl := colsToRows (n + 100) (cols.map (fun pr => pr.2))
    let agg2 := wtaMat agg ovl
    let ovl2 := wtaMat ovl ovl
    let active := (List.range tracks.length).filter
      (fun k => decide (0 < colSum agg2 k))
    some (selectCols agg2 active, selectCols ovl2 active)

/-- `np.hstack` of row-major matrices sharing `n` rows. -/
def hstackRows (n : ℕ) (ms : List (List (List ℚ))) : List (List ℚ) :=
  (List.range n).map (fun f => (ms.map (fun m => m.getD f [])).flatten)

/-- Lines 137-294: whole-file aggregation up to the division; the
`Except.error` is the `ValueError` numpy raises in `np.hstack` on an empty
list (line 293) when no component yields a track. -/
def applyCore (θa θc fstep dur step fileDur : ℚ) (acts : List Chunk) :
    Except String (List (List ℚ) × List (List ℚ)) :=
  let g := buildGraph θa θc fstep dur step acts
  let bip := makeCliqueBipartite g
  let n := numFramesInFile fstep fileDur
  let L := numOverlappingChunks dur step
  let parts := (bcomponents bip).filterMap
    (fun comp => processComponent fstep n acts L (bip.induce comp))
  match parts with
  | [] => Except.error "need at least one array to concatenate"
  | ps => Except.ok
      (hstackRows (n + 100) (ps.map (fun pr => pr.1)),
        hstackRows (n + 100) (ps.map (fun pr => pr.2)))

/-- A numpy float64 produced by the division: finite, NaN, or a signed
infinity. -/
inductive NpVal where
  | fin : ℚ → NpVal
  | nan : NpVal
  | posinf : NpVal
  | neginf : NpVal
deriving DecidableEq

/-- numpy elementwise division: `0/0` is NaN, `x/0` a signed infinity. -/
def npDiv (a b : ℚ) : NpVal :=
  if b = 0 then
    (if a = 0 then NpVal.nan else if 0 < a then NpVal.posinf else NpVal.neginf)
  else NpVal.fin (a / b)

def divMat (agg ovl : List (List ℚ)) : List (List NpVal) :=
  (agg.zip ovl).map (fun pr => (pr.1.zip pr.2).map (fun qr => npDiv qr.1 qr.2))

/-- Lines 137-296 with `return_activation = True`: the aggregated activation
matrix `aggregated / overlapped`. -/
def applyModel (θa θc fstep dur step fileDur : ℚ) (acts : List Chunk) :
    Except String (List (List NpVal)) :=
  match applyCore θa θc fstep dur step fileDur acts with
  | Except.error e => Except.error e
  | Except.ok pr => Except.ok (divMat pr.1 pr.2)

/-- Three single-slot chunks of constant activation 1 covering `[0, 4)`,
duration 2, step 1, frame step 1. -/
def exChunks : List Chunk :=
  [⟨0, 2, [[1], [1]]⟩, ⟨1, 3, [[1], [1]]⟩, ⟨2, 4, [[1], [1]]⟩]

/-- C6: `apply` on an empty chunk sequence, and on a single chunk with no
partner to compare against, reaches `np.hstack([])` (lines 293-294) and
raises instead of returning an explicit degenerate result. -/
theorem degenerate_input_raises :
    (applyModel (mkRat 1 2) (mkRat 1 2) 1 2 1 4 []).toOption = none
    ∧ (applyModel (mkRat 1 2) (mkRat 1 2) 1 2 1 2
        [⟨0, 2, [[1], [1]]⟩]).toOption = none := by
  constructor
  · rfl
  · rfl

/-- C7: on the three-chunk example the output matrix has
`num_frames_in_file + 100 = 104` rows (the padding of line 265), not exactly
the file's 4-frame grid. -/
theorem output_shape_padded :
    (applyModel (mkRat 1 2) (mkRat 1 2) 1 2 1 4 exChunks).toOption.map
        List.length = some 104
    ∧ numFramesInFile 1 4 = 4 := by
  constructor
  · rfl
  · rfl

/-- C5: at frame 4 of the three-chunk example the final overlap-count is 0,
and the unguarded division of line 296 puts NaN — not 0.0 — into the output
matrix. -/
theorem zero_overlap_division_nan :
    (applyCore (mkRat 1 2) (mkRat 1 2) 1 2 1 4 exChunks).toOption.map
        (fun pr => entry pr.2 4 0) = some 0
    ∧ (applyModel (mkRat 1 2) (mkRat 1 2) 1 2 1 4 exChunks).toOption.map
        (fun m => (m.getD 4 []).getD 0 (NpVal.fin 0)) = some NpVal.nan := by
  constructor
  · rfl
  · rfl

/-! ### The file mapping side effect (lines 147 and 298) -/

/-- A value stored in the `AudioFile` mapping. -/
inductive StoreVal where
  | raw : List Chunk → StoreVal
  | act : List (List NpVal) → StoreVal
  | uri : String → StoreVal
deriving DecidableEq

abbrev FileMap := List (String × StoreVal)

def getKey : FileMap → String → Option StoreVal
  | [], _ => none
  | kv :: rest, k => if kv.1 = k then some kv.2 else getKey rest k

/-- Python `dict` assignment: replace in place or append. -/
def setKey : FileMap → String → StoreVal → FileMap
  | [], k, v => [(k, v)]
  | kv :: rest, k, v => if kv.1 = k then (k, v) :: rest else kv :: setKey rest k v

def rawKey : String := "@segmentation/raw_activations"

def actKey : String := "@segmentation/activations"

/-- Lines 123-301 with `return_activation = True`: `apply` stores the split
activations under `rawKey` (line 147), aggregates, stores the result under
`actKey` (line 298) and returns it. -/
def applyFile (θa θc fstep dur step fileDur : ℚ) (f : FileMap)
    (acts : List Chunk) : Except String (FileMap × List (List NpVal)) :=
  match applyModel θa θc fstep dur step fileDur acts with
  | Except.error e => Except.error e
  | Except.ok out =>
      Except.ok (setKey (setKey f rawKey (StoreVal.raw acts)) actKey
        (StoreVal.act out), out)

theorem getKey_setKey_same (f : FileMap) (k : String) (v : StoreVal) :
    getKey (setKey f k v) k = some v := by
  induction f with
  | nil => simp [setKey, getKey]
  | cons kv rest ih =>
    by_cases h : kv.1 = k
    · simp [setKey, h, getKey]
    · simp [setKey, h, getKey, ih]

theorem getKey_setKey_other (f : FileMap) (k k1 : String) (v : StoreVal)
    (h : k1 ≠ k) : getKey (setKey f k v) k1 = getKey f k1 := by
  induction f with
  | nil => simp [setKey, getKey, Ne.symm h]
  | cons kv rest ih =>
    by_cases h2 : kv.1 = k
    · subst h2
      simp [setKey, getKey, Ne.symm h, ih]
    · by_cases h3 : kv.1 = k1
      · simp only [setKey]
        rw [if_neg h2]
        simp only [getKey]
        rw [if_pos h3, if_pos h3]
      · simp only [setKey]
        rw [if_neg h2]
        simp only [getKey]
        rw [if_neg h3, if_neg h3]
        exact ih

/-- C10: every successful run of `apply` changes the caller's file mapping at
exactly the keys `"@segmentation/raw_activations"` (line 147) and
`"@segmentation/activations"` (line 298) — the first holds the split
per-chunk activations, the second the returned aggregated matrix — and at no
other key. -/
theorem apply_mutates_two_keys (θa θc fstep dur step fileDur : ℚ)
    (f : FileMap) (acts : List Chunk) (pr : FileMap × List (List NpVal))
    (h : applyFile θa θc fstep dur step fileDur f acts = Except.ok pr) :
    getKey pr.1 rawKey = some (StoreVal.raw acts)
    ∧ getKey pr.1 actKey = some (StoreVal.act pr.2)
    ∧ ∀ k, k ≠ rawKey → k ≠ actKey → getKey pr.1 k = getKey f k := by
  unfold applyFile at h
  cases hm : applyModel θa θc fstep dur step fileDur acts with
  | error e =>
    rw [hm] at h
    cases h
  | ok out =>
    rw [hm] at h
    have hpr := (Except.ok.injEq _ _).mp h
    have hraw : rawKey ≠ actKey := by decide
    refine ⟨?_, ?_, ?_⟩
    · rw [← hpr]
      rw [getKey_setKey_other _ _ _ _ hraw, getKey_setKey_same]
    · rw [← hpr]
      rw [getKey_setKey_same]
    · intro k hk1 hk2
      rw [← hpr]
      rw [getKey_setKey_other _ _ _ _ hk2, getKey_setKey_other _ _ _ _ hk1]

def exFile : FileMap := [("uri", StoreVal.uri "audio")]

def exRun : Except String (FileMap × List (List NpVal)) :=
  applyFile (mkRat 1 2) (mkRat 1 2) 1 2 1 4 exFile exChunks

/-- Witness for `apply_mutates_two_keys` on the concrete three-chunk run: the
raw-activations key is set and the key `"uri"` is untouched. -/
theorem apply_mutates_two_keys_witness :
    getKey (exRun.toOption.getD ([], [])).1 rawKey
        = some (StoreVal.raw exChunks)
    ∧ getKey (exRun.toOption.getD ([], [])).1 "uri" = getKey exFile "uri" := by
  have h := apply_mutates_two_keys (mkRat 1 2) (mkRat 1 2) 1 2 1 4 exFile
    exChunks (exRun.toOption.getD ([], [])) (by rfl)
  exact ⟨h.1, h.2.2 "uri" (by decide) (by decide)⟩

end RatReduction

end SegGraph
